import Mathlib

/-!
Shallow embedding of the translation pipeline orchestrator from
`src/app/api/translate/route.ts` (the file contains two variants of the
route; both are embedded here: the character-budget chunker
`chunkText`/`sanitizeDocx` from the first variant, and the batched
page-based pipeline from the second variant, which contains
`sanitize`, `splitTextByPages`, `groupBy`, `translateChunkWithRetries`
and the `POST` batch loop).

Document text is modelled as `List Char` (JS strings).  Wall-clock time
(`Date.now()` comparisons against `HARD_TIME_LIMIT_MS`) is modelled by an
oracle giving the boolean outcome of each successive deadline check, and
remote translation calls by an oracle giving each attempt's outcome.
-/

namespace Translator

/-- JS string text: a list of characters. -/
abbrev Str := List Char

/-- Whitespace characters as recognized by JS `String.prototype.trim`
(the characters relevant to this code base: ASCII whitespace, NBSP,
line/paragraph separators, BOM). -/
def isWs (c : Char) : Bool :=
  c = ' ' || c = '\t' || c = '\n' || c = '\r' || c = '\x0b' || c = '\x0c' ||
  c = ' ' || c = ' ' || c = ' ' || c = '﻿'

/-- JS line terminators (the characters `.` does not match in a JS regex). -/
def isLineTerm (c : Char) : Bool :=
  c = '\n' || c = '\r' || c = ' ' || c = ' '

/-- JS `s.trim()`: drop whitespace from both ends. -/
def trim (l : Str) : Str :=
  ((l.dropWhile isWs).reverse.dropWhile isWs).reverse

/-- The non-whitespace content of a string, used to state
"equal modulo whitespace normalization". -/
def filterNW (l : Str) : Str := l.filter (fun c => !isWs c)

/-- Right-trim only (helper for reasoning about `trim`). -/
def trimR (l : Str) : Str := (l.reverse.dropWhile isWs).reverse

/-- Control characters removed by `sanitize` (second route variant):
the regex class `[\x00-\x08\x0B\x0C\x0E-\x1F]`. -/
def isCtl (c : Char) : Bool :=
  c.toNat ≤ 0x08 || c = '\x0b' || c = '\x0c' ||
  (0x0e ≤ c.toNat && c.toNat ≤ 0x1f)

/-- Control characters removed by `sanitizeDocx` (first route variant):
the regex class `[\x00-\x08\x0B\x0C\x0E-\x1F\x7F]`. -/
def isCtlDocx (c : Char) : Bool := isCtl c || c = '\x7f'

/-- JS `s.replace(/\r\n/g, "\n")`: left-to-right, non-overlapping. -/
def replCRLF : Str → Str
  | [] => []
  | [c] => [c]
  | c :: d :: rest =>
    if c = '\r' && d = '\n' then '\n' :: replCRLF rest
    else c :: replCRLF (d :: rest)

/-- JS `s.replace(/\r/g, "\n")`. -/
def mapCR (l : Str) : Str := l.map (fun c => if c = '\r' then '\n' else c)

/-- Common shape of both sanitation functions: strip a class of control
characters, then `\r\n -> \n`, then `\r -> \n`, in source order. -/
def scrub (bad : Char → Bool) (s : Str) : Str :=
  mapCR (replCRLF (s.filter (fun c => !bad c)))

/-- Model of `sanitize` from the second route variant (lines 228-233). -/
def sanitize (s : Str) : Str := scrub isCtl s

/-- Model of `sanitizeDocx` from the first route variant (lines 50-55). -/
def sanitizeDocx (s : Str) : Str := scrub isCtlDocx s

/-- Structural helper for `groupBy`: the first argument is recursion
fuel, always instantiated with `l.length` (an upper bound on the number
of groups), so that the definition reduces in the kernel. -/
def groupByGo {α : Type} : Nat → List α → Nat → List (List α)
  | _, [], _ => []
  | 0, l, _ => [l]
  | fuel + 1, a :: rest, size =>
    (a :: rest.take (size - 1)) :: groupByGo fuel (rest.drop (size - 1)) size

/-- Model of `groupBy` from the second route variant (lines 250-254):
`for (let i = 0; i < arr.length; i += size) res.push(arr.slice(i, i + size))`.
Faithful for `size ≥ 1` (both call sites pass `Math.max(1, _)` or the
constant 3; `size = 0` would not terminate in JS). -/
def groupBy {α : Type} (l : List α) (size : Nat) : List (List α) :=
  groupByGo l.length l size

/-- JS `text.split(sep)` for a single-character separator class given by a
predicate: splits at every matching character, keeping empty fields. -/
def splitOnPred (p : Char → Bool) : Str → List Str
  | [] => [[]]
  | c :: rest =>
    if p c then [] :: splitOnPred p rest
    else
      match splitOnPred p rest with
      | [] => [[c]]
      | h :: t => (c :: h) :: t

/-- JS `p.match(new RegExp(`.{1,max}`, 'g'))` (empty result list standing
for a `null` match): the maximal runs of non-line-terminator characters,
each split greedily into pieces of at most `max` characters. -/
def jsMatchAll (p : Str) (max : Nat) : List Str :=
  (((splitOnPred isLineTerm p).filter (fun seg => !seg.isEmpty)).map
    (fun seg => groupBy seg max)).flatten

/-- The `parts` used in `chunkText`'s oversized-paragraph branch
(line 63): `p.match(...) ?? [p]`. -/
def jsParts (p : Str) (max : Nat) : List Str :=
  match jsMatchAll p max with
  | [] => [p]
  | parts => parts

/-- One step of `chunkText`'s buffer loop (lines 64-69 and 73-77): flush
the buffer when adding `part` would exceed `max`, then append
`part + '\n'` to the buffer.  State is (chunks so far, buffer). -/
def feedPart (max : Nat) (st : List Str × Str) (part : Str) : List Str × Str :=
  if st.2.length + part.length + 1 > max then
    (if trim st.2 ≠ [] then st.1 ++ [trim st.2] else st.1, part ++ ['\n'])
  else
    (st.1, st.2 ++ (part ++ ['\n']))

/-- Processing of one paragraph in `chunkText` (lines 61-78): hard-split
oversized paragraphs into regex pieces and re-buffer, else buffer whole. -/
def feedPara (max : Nat) (st : List Str × Str) (p : Str) : List Str × Str :=
  if p.length > max then (jsParts p max).foldl (feedPart max) st
  else feedPart max st p

/-- Model of `chunkText` from the first route variant (lines 57-81): split on
newlines, drop blank paragraphs, accumulate into buffers of at most
`max` characters, flush the final buffer. -/
def chunkText (text : Str) (max : Nat) : List Str :=
  let paras := (splitOnPred (fun c => c = '\n') text).filter (fun p => !(trim p).isEmpty)
  let st := paras.foldl (feedPara max) ([], [])
  if trim st.2 ≠ [] then st.1 ++ [trim st.2] else st.1

/-- Model of `splitTextByPages` from the second route variant (lines 236-248):
slice the text into `numPages` consecutive runs of
`Math.ceil(len / numPages)` characters, then trim each slice. -/
def splitTextByPages (fullText : Str) (numPages : Nat) : List Str :=
  if numPages ≤ 1 then [fullText]
  else
    let len := if fullText.length = 0 then 1 else fullText.length
    let per := (len + numPages - 1) / numPages
    ((List.range numPages).map (fun i =>
      (fullText.drop (i * per)).take (Nat.min ((i + 1) * per) len - i * per))).map trim

/-- JS `arr.join(sep)`. -/
def joinSep (sep : Str) : List Str → Str
  | [] => []
  | [a] => a
  | a :: rest => a ++ sep ++ joinSep sep rest

/-- The text of one page-mode work unit (line 593):
`pages.join("\n\n")` over one group of pages. -/
def pageUnits (fullText : Str) (numPages chunkSizePages : Nat) : List Str :=
  (groupBy (splitTextByPages fullText numPages) chunkSizePages).map
    (joinSep ['\n', '\n'])

/-- Invariant of `chunkText`'s loop state: all flushed chunks fit in
`max`, and the buffer is empty or `x ++ '\n'` with `x` within budget. -/
def SizeInv (max : Nat) (st : List Str × Str) : Prop :=
  (∀ c ∈ st.1, c.length ≤ max) ∧
  (st.2 = [] ∨ ∃ x, st.2 = x ++ ['\n'] ∧ x.length ≤ max)

/-- Invariant of `chunkText`'s loop state: every flushed chunk is
already trimmed and nonblank. -/
def TrimInv (st : List Str × Str) : Prop :=
  ∀ c ∈ st.1, trim c = c ∧ c ≠ []

/-! Pipeline model (second route variant, lines 208-737).

`Date.now()` deadline checks are serialized: check `2*b` is the
pre-admission check of batch `b` (line 579) and check `2*b+1` the
post-batch check (line 650).  Remote calls are an oracle per
(1-based chunk index, 0-based attempt); per-call latency and token-usage
payloads of progress events are wall-clock metrics outside the model
and are elided from the event payloads. -/

def DEFAULT_CHUNK_PAGES : Nat := 20

def PARALLEL_LIMIT : Nat := 3

def HARD_TIME_LIMIT_MS : Nat := 290000

def CHUNK_REQUEST_TIMEOUT_MS : Nat := 60000

def CHUNK_REQUEST_RETRIES : Nat := 1

/-- Server-sent events (`send({type: ...})`).  The `completed` payload
field `partFlag` models the JSON field reporting a partial result. -/
inductive Event where
  | error (msg : String)
  | log (msg : String)
  | init (totalChunks : Nat) (msg : String)
  | chunk (index textLength : Nat) (ok : Bool) (attempt : Option Nat)
      (errMsg : Option String)
  | progress (currentChunk totalChunks : Nat) (msg : String)
  | metrics (completedChunks failedChunks : Nat)
  | building (msg : String)
  | metricsFinal (totalChunksCompleted failedChunks elapsedSeconds : Nat)
  | completed (downloadUrl : String) (pagesProcessed : Nat) (model : String)
      (elapsedSeconds : Nat) (partFlag : Bool) (failedChunks : Nat)
      (notice : Option String)
deriving DecidableEq, Repr

def isErrorEv : Event → Bool
  | .error _ => true
  | _ => false

def isCompletedEv : Event → Bool
  | .completed .. => true
  | _ => false

/-- Outcome of one remote translation attempt: a successful response
with raw text, a rejected call, or expiry of the 60s timeout race. -/
inductive AttemptOutcome where
  | success (raw : Str)
  | failure (msg : String)
  | timeout
deriving DecidableEq, Repr

def outcomeMsg : AttemptOutcome → String
  | .success _ => ""
  | .failure m => m
  | .timeout => s!"Timeout after {CHUNK_REQUEST_TIMEOUT_MS}ms"

/-- The value returned by `translateChunkWithRetries`
(`{text, ok, error}`; `usage`/`durationMs` elided as metrics). -/
structure TaskResult where
  text : Str
  ok : Bool
  errMsg : Option String
deriving DecidableEq, Repr

/-- Result of executing one work unit, with ghost observations: how many
attempts were performed, which backoff delays (ms) were awaited between
attempts, and the events sent. -/
structure ExecOut where
  res : TaskResult
  attemptsMade : Nat
  backoffsMs : List Nat
  events : List Event
deriving DecidableEq, Repr

/-- Events sent in the `catch` branch of one failed attempt
(lines 533-547): the timeout race's own log when it expired, the error
log, and the failed `chunk` metric event. -/
def failEvents (idx label : Nat) (fo : AttemptOutcome) : List Event :=
  (match fo with
   | .timeout =>
     [Event.log s!"Chunk {idx}: request timed out after {CHUNK_REQUEST_TIMEOUT_MS}ms (attempt {label})"]
   | _ => []) ++
  [Event.log s!"Chunk {idx} error on attempt {label}: {outcomeMsg fo}",
   Event.chunk idx 0 false (some label) (some (outcomeMsg fo))]

/-- The retry loop of `translateChunkWithRetries` (lines 489-561).
`attempt` is the 0-based attempt counter; the last argument is the
number of retries still allowed (`CHUNK_REQUEST_RETRIES - attempt`),
used as structural recursion fuel. -/
def attemptLoop (oracle : Nat → AttemptOutcome) (idx : Nat) :
    Nat → Nat → ExecOut
  | attempt, 0 =>
    let label := attempt + 1
    let startEv := Event.log s!"Translating chunk {idx} (attempt {label})..."
    match oracle attempt with
    | .success raw =>
      let out := sanitize raw
      { res := { text := out, ok := true, errMsg := none },
        attemptsMade := label, backoffsMs := [],
        events := [startEv, Event.chunk idx out.length true none none] }
    | fo =>
      { res := { text := [], ok := false, errMsg := some (outcomeMsg fo) },
        attemptsMade := label, backoffsMs := [],
        events := startEv :: failEvents idx label fo ++
          [Event.log s!"Chunk {idx} failed after {CHUNK_REQUEST_RETRIES + 1} attempts"] }
  | attempt, remaining + 1 =>
    let label := attempt + 1
    let startEv := Event.log s!"Translating chunk {idx} (attempt {label})..."
    match oracle attempt with
    | .success raw =>
      let out := sanitize raw
      { res := { text := out, ok := true, errMsg := none },
        attemptsMade := label, backoffsMs := [],
        events := [startEv, Event.chunk idx out.length true none none] }
    | fo =>
      let rest := attemptLoop oracle idx (attempt + 1) remaining
      { res := rest.res, attemptsMade := rest.attemptsMade,
        backoffsMs := 500 * 2 ^ attempt :: rest.backoffsMs,
        events := (startEv :: failEvents idx label fo) ++ rest.events }

/-- Model of `translateChunkWithRetries(textChunk, idx)` (line 489).  The chunk
text only feeds the outbound prompt, which the remote oracle abstracts;
the function never throws — every failure is returned as a value. -/
def translateChunkWithRetries (oracle : Nat → AttemptOutcome)
    (textChunk : Str) (idx : Nat) : ExecOut :=
  attemptLoop oracle idx 0 CHUNK_REQUEST_RETRIES

/-- The request body fields read by `POST` (lines 391-397). -/
structure Request where
  fileUrl : Option String
  sourceLang : Option String
  targetLang : Option String
  model : Option String
  chunkSizePages : Option Int

/-- What `pdf-parse` reports: `info.numpages` and the extracted text. -/
structure PdfData where
  numpages : Option Nat
  text : Str

/-- Oracles for everything outside the orchestrator: environment,
download, PDF parsing (primary and pdfjs fallback), the remote
translation calls, the serialized deadline checks, the DOCX upload, and
the elapsed seconds measured at the end of the run. -/
structure World where
  apiKeyPresent : Bool
  fetchOk : Bool
  fetchStatus : Nat
  contentType : Option String
  pdfSize : Nat
  parseResult : Option PdfData
  parseErrMsg : String
  fallbackResult : Option (Nat × Str)
  fallbackErrMsg : String
  attempt : Nat → Nat → AttemptOutcome
  exceeded : Nat → Bool
  uploadResult : Option String
  uploadErrMsg : String
  elapsedSeconds : Nat

def allowedModels : List String :=
  ["gpt-4o-mini", "gpt-5-mini", "gpt-4o", "gpt-4", "gpt-3.5-turbo"]

/-- One task of a batch (lines 591-596): translate the group of pages
joined by blank lines, at 1-based global index `g`. -/
def execUnit (w : World) (g : Nat) (pages : List Str) : ExecOut :=
  translateChunkWithRetries (w.attempt g) (joinSep ['\n', '\n'] pages) g

/-- The per-result bookkeeping of the settle loop (lines 601-645):
`progress` and `metrics` events with the running counters. -/
def settleEvents (totalChunks : Nat) : Nat → Nat → List ExecOut → List Event
  | _, _, [] => []
  | done, failed, r :: rest =>
    let done1 := done + 1
    let failed1 := if r.res.ok then failed else failed + 1
    Event.progress done1 totalChunks s!"Translated chunk {done1}/{totalChunks}" ::
      Event.metrics done1 failed1 ::
      settleEvents totalChunks done1 failed1 rest

/-- The `failedChunks` counter after settling a list of results. -/
def failedAfter : Nat → List ExecOut → Nat
  | failed, [] => failed
  | failed, r :: rest => failedAfter (if r.res.ok then failed else failed + 1) rest

/-- Output of the batch loop: events, settled texts in order, the final
`failedChunks` counter, and the total number of remote attempts. -/
structure LoopOut where
  events : List Event
  translated : List Str
  failedChunks : Nat
  calls : Nat
deriving DecidableEq, Repr

/-- The batch loop of `POST` (lines 574-658): before each batch, check
the deadline (check `2*b`); run the batch's units (results settle in
task order); after the batch, check the deadline again (check `2*b+1`). -/
def batchLoop (w : World) (totalChunks nBatches : Nat) :
    List (List (List Str)) → Nat → Nat → Nat → LoopOut
  | [], _, _, failed =>
    { events := [], translated := [], failedChunks := failed, calls := 0 }
  | batch :: rest, b, done, failed =>
    if w.exceeded (2 * b) then
      { events := [Event.log "⏳ Time limit reached. Building partial DOCX..."],
        translated := [], failedChunks := failed, calls := 0 }
    else
      let bl := s!"{b + 1}/{nBatches}"
      let sz := batch.length
      let startEv := Event.log s!"⚡ Started batch {bl} (size {sz})"
      let execs := batch.mapIdx (fun i pages => execUnit w (b * PARALLEL_LIMIT + i + 1) pages)
      let taskEvents := (execs.map ExecOut.events).flatten
      let sEvs := settleEvents totalChunks done failed execs
      let texts := execs.map (fun e => e.res.text)
      let calls := (execs.map ExecOut.attemptsMade).sum
      let done1 := done + execs.length
      let failed1 := failedAfter failed execs
      let finEv := Event.log s!"✅ Finished batch {bl}"
      if w.exceeded (2 * b + 1) then
        { events := startEv :: taskEvents ++ sEvs ++
            [finEv, Event.log "⏳ Time limit reached after batch. Building partial DOCX..."],
          translated := texts, failedChunks := failed1, calls := calls }
      else
        let restOut := batchLoop w totalChunks nBatches rest (b + 1) done1 failed1
        { events := startEv :: taskEvents ++ sEvs ++ finEv :: restOut.events,
          translated := texts ++ restOut.translated,
          failedChunks := restOut.failedChunks,
          calls := calls + restOut.calls }

/-- Model of `successfulChunks` (line 682): settled units whose text is nonblank. -/
def successfulChunks (translated : List Str) : Nat :=
  (translated.filter (fun t => !(trim t).isEmpty)).length

/-- The tail of `POST` after the batch loop (lines 660-718): fatal error
when nothing settled, else build + upload the document and emit the
final metrics and the `completed` event. -/
def finishRun (w : World) (model : String) (chunkSize totalPages totalChunks : Nat)
    (lo : LoopOut) : List Event :=
  if lo.translated.length = 0 then
    [Event.error "Nothing translated (timeout or errors)."]
  else
    Event.building "Building DOCX file..." ::
    match w.uploadResult with
    | none => [Event.error s!"Failed to build/upload DOCX: {w.uploadErrMsg}"]
    | some url =>
      let elapsed := w.elapsedSeconds
      let est := successfulChunks lo.translated * chunkSize
      let pagesProcessed := if 0 < totalPages then Nat.min totalPages est else est
      let isLate := decide (HARD_TIME_LIMIT_MS / 1000 ≤ elapsed)
      let partFlag := decide (lo.translated.length < totalChunks) || isLate
      let notice := if partFlag then
          some "The document was translated partially. Current version has a 300-second translation time limit."
        else none
      [Event.metricsFinal lo.translated.length lo.failedChunks elapsed,
       Event.completed url pagesProcessed model elapsed partFlag lo.failedChunks notice]

/-- Result of a whole `POST` invocation: the event trace, whether the
source document download was reached, the number of remote translation
attempts issued, and the settled unit texts. -/
structure RunTrace where
  events : List Event
  fetched : Bool
  translateCalls : Nat
  translated : List Str
deriving DecidableEq, Repr

/-- Model of `Math.max(1, chunkSizePages)` with the request default of 20. -/
def chunkSizeOf (req : Request) : Nat :=
  (max 1 (req.chunkSizePages.getD (Int.ofNat DEFAULT_CHUNK_PAGES))).toNat

/-- Model of `POST` from text extraction onward (lines 468-718). -/
def postAfterParse (w : World) (model : String) (chunkSize : Nat)
    (preEvents : List Event) (totalPages : Nat) (rawText : Str) : RunTrace :=
  let fullText := trim rawText
  if fullText.isEmpty then
    { events := preEvents ++ [Event.error "No text found in PDF."],
      fetched := true, translateCalls := 0, translated := [] }
  else
    let pageTexts := splitTextByPages fullText
      (Nat.max 1 (if totalPages = 0 then 1 else totalPages))
    let pageChunks := groupBy pageTexts chunkSize
    let totalChunks := pageChunks.length
    let tp := if totalPages = 0 then "unknown" else toString totalPages
    let batches := groupBy pageChunks PARALLEL_LIMIT
    let lo := batchLoop w totalChunks batches.length batches 0 0 0
    { events := preEvents ++ Event.init totalChunks s!"Total pages in document – {tp}" ::
        lo.events ++ finishRun w model chunkSize totalPages totalChunks lo,
      fetched := true, translateCalls := lo.calls, translated := lo.translated }

/-- The `POST` handler of the second route variant (lines 381-737):
model validation, request/environment checks, download, extraction with
fallback, then the chunked, batched translation run. -/
def postModel (req : Request) (w : World) : RunTrace :=
  let model := req.model.getD "gpt-4o-mini"
  if !(allowedModels.contains model) then
    { events := [Event.error "Unsupported model"], fetched := false,
      translateCalls := 0, translated := [] }
  else if req.fileUrl.getD "" = "" then
    { events := [Event.error "Missing fileUrl"], fetched := false,
      translateCalls := 0, translated := [] }
  else if !w.apiKeyPresent then
    { events := [Event.error "OpenAI API key not configured"], fetched := false,
      translateCalls := 0, translated := [] }
  else
    let dl := Event.log "Downloading PDF..."
    if !w.fetchOk then
      let st := w.fetchStatus
      { events := [dl, Event.error s!"Failed to download PDF: {st}"],
        fetched := true, translateCalls := 0, translated := [] }
    else
      let ct := w.contentType.getD "unknown"
      let sz := w.pdfSize
      let hdr := [dl, Event.log s!"PDF Content-Type: {ct}",
        Event.log s!"Downloaded PDF size: {sz} bytes",
        Event.log "Extracting text from PDF..."]
      match w.parseResult with
      | some pd =>
        postAfterParse w model (chunkSizeOf req)
          (hdr ++ [Event.log "pdf-parse succeeded"]) (pd.numpages.getD 0) pd.text
      | none =>
        let failLogs := [Event.log s!"pdf-parse failed: {w.parseErrMsg}",
          Event.log "Attempting fallback extraction with pdfjs-dist..."]
        match w.fallbackResult with
        | some (n, t) =>
          postAfterParse w model (chunkSizeOf req)
            (hdr ++ failLogs ++ [Event.log s!"pdfjs-dist fallback succeeded, pages={n}"]) n t
        | none =>
          { events := hdr ++ failLogs ++
              [Event.log s!"pdfjs-dist fallback failed: {w.fallbackErrMsg}",
               Event.error "Invalid PDF structure"],
            fetched := true, translateCalls := 0, translated := [] }

/-- How many batches the loop admits before a deadline check stops it. -/
def admittedCount (exceeded : Nat → Bool) : Nat → List (List (List Str)) → Nat
  | _, [] => 0
  | b, _ :: rest =>
    if exceeded (2 * b) then 0
    else if exceeded (2 * b + 1) then 1
    else admittedCount exceeded (b + 1) rest + 1

/-- An event the batch loop may emit: never a terminal `error`/`completed`. -/
def benignEv (e : Event) : Bool := !isErrorEv e && !isCompletedEv e

def isSuccessOutcome : AttemptOutcome → Bool
  | .success _ => true
  | _ => false

/-- A remote oracle that always fails with an authentication error — a
`RemotePermanent`/client-error condition in the spec's taxonomy. -/
def authOracle : Nat → AttemptOutcome := fun _ => .failure "401 Unauthorized"

/-- A remote oracle that always fails. -/
def failOracle : Nat → AttemptOutcome := fun _ => .failure "boom"

/-- A remote oracle that always succeeds. -/
def okOracle : Nat → AttemptOutcome := fun _ => .success ['o', 'k']

/-- Concrete request: 1 page per unit, default model. -/
def exReq : Request :=
  { fileUrl := some "u"
    sourceLang := none
    targetLang := none
    model := none
    chunkSizePages := some 1 }

/-- Concrete happy-path environment: a 2-page, 8-character document;
unit 1 translates, unit 2 fails both attempts. -/
def exWorldMixed : World :=
  { apiKeyPresent := true
    fetchOk := true
    fetchStatus := 200
    contentType := some "application/pdf"
    pdfSize := 100
    parseResult := some { numpages := some 2, text := "aaaabbbb".toList }
    parseErrMsg := ""
    fallbackResult := none
    fallbackErrMsg := ""
    attempt := fun g _ => if g = 1 then .success ['x'] else .failure "boom"
    exceeded := fun _ => false
    uploadResult := some "URL"
    uploadErrMsg := ""
    elapsedSeconds := 1 }

/-- Same environment with every translation attempt failing. -/
def exWorldAllFail : World := { exWorldMixed with attempt := fun _ _ => failOracle 0 }

/-- Environment whose document has an all-whitespace page region
(`"ab    cd"` split into 4 pages): pages 2 and 3 are blank. -/
def exWorldBlank : World :=
  { exWorldMixed with
      parseResult := some { numpages := some 4, text := "ab    cd".toList }
      attempt := fun _ => okOracle }

/-- Two singleton batches for the deadline witness. -/
def exBatches2 : List (List (List Str)) := [[[['a']]], [[['b']]]]

/-- World whose deadline passes right after the first batch
(check 0 false, all later checks true), all attempts succeeding. -/
def exWorldDeadline : World :=
  { exWorldMixed with
      attempt := fun _ => okOracle
      exceeded := fun i => decide (1 ≤ i) }

/-- An empty loop result: no unit settled before the deadline. -/
def exLoEmpty : LoopOut :=
  { events := [], translated := [], failedChunks := 0, calls := 0 }

/-- Extracts the `partial` payloads of the `completed` events in a trace. -/
def completedPartFlags (evs : List Event) : List Bool :=
  evs.filterMap (fun e =>
    match e with
    | .completed _ _ _ _ pf _ _ => some pf
    | _ => none)


theorem isLineTerm_isWs {c : Char} (h : isLineTerm c = true) : isWs c = true := by
  simp only [isLineTerm, Bool.or_eq_true, decide_eq_true_eq] at h
  simp only [isWs, Bool.or_eq_true, decide_eq_true_eq]
  tauto

theorem trim_eq_nil_iff {l : Str} : trim l = [] ↔ ∀ c ∈ l, isWs c = true := by
  unfold trim
  rw [List.reverse_eq_nil_iff, List.dropWhile_eq_nil_iff]
  constructor
  · intro h c hc
    rw [← List.takeWhile_append_dropWhile (p := isWs) (l := l)] at hc
    rcases List.mem_append.mp hc with h1 | h2
    · exact List.mem_takeWhile_imp h1
    · exact h _ (List.mem_reverse.mpr h2)
  · intro h x hx
    exact h x ((List.dropWhile_sublist _).subset (List.mem_reverse.mp hx))

theorem trim_eq_trimR (l : Str) : trim l = trimR (l.dropWhile isWs) := rfl

theorem trimR_sublist (l : Str) : List.Sublist (trimR l) l := by
  have h : List.Sublist (l.reverse.dropWhile isWs) l.reverse := List.dropWhile_sublist _
  have h2 := List.reverse_sublist.mpr h
  simpa [trimR] using h2

theorem trim_sublist (l : Str) : List.Sublist (trim l) l := by
  rw [trim_eq_trimR]
  exact (trimR_sublist _).trans (List.dropWhile_sublist _)

theorem length_trim_le (l : Str) : (trim l).length ≤ l.length :=
  (trim_sublist l).length_le

theorem trim_append_ws {l : Str} {a : Char} (ha : isWs a = true) :
    trim (l ++ [a]) = trim l := by
  unfold trim
  rw [List.dropWhile_append]
  by_cases h : (l.dropWhile isWs).isEmpty = true
  · have h0 : l.dropWhile isWs = [] := List.isEmpty_iff.mp h
    simp [List.dropWhile_cons, ha, h0]
  · rw [if_neg h, List.reverse_append]
    simp [List.dropWhile_cons, ha]

theorem dropWhile_eq_self_of_head {p : Char → Bool} {l : Str}
    (h : ∀ w : l ≠ [], p (l.head w) = false) : l.dropWhile p = l := by
  cases l with
  | nil => rfl
  | cons c r =>
    have := h (by simp)
    simp only [List.head_cons] at this
    simp [List.dropWhile_cons, this]

theorem trimR_trimR (l : Str) : trimR (trimR l) = trimR l := by
  unfold trimR
  rw [List.reverse_reverse]
  rw [dropWhile_eq_self_of_head (fun w => List.head_dropWhile_not isWs l.reverse w)]

theorem head_trimR_of_head {l : Str} {c : Char} (hl : l.head? = some c)
    (hc : isWs c = false) : (trimR l).head? = some c := by
  rcases l with _ | ⟨d, m⟩
  · simp at hl
  · simp only [List.head?_cons, Option.some.injEq] at hl
    subst hl
    unfold trimR
    rw [List.reverse_cons, List.dropWhile_append]
    by_cases h : (m.reverse.dropWhile isWs).isEmpty = true
    · have h0 : m.reverse.dropWhile isWs = [] := List.isEmpty_iff.mp h
      simp [h0, List.dropWhile_cons, hc]
    · rw [if_neg h, List.reverse_append]
      simp

theorem dropWhile_trim_eq (l : Str) : (trim l).dropWhile isWs = trim l := by
  rw [trim_eq_trimR]
  set m := l.dropWhile isWs with hm
  rcases hh : m.head? with _ | ⟨c⟩
  · have h0 : m = [] := List.head?_eq_none_iff.mp hh
    simp [h0, trimR]
  · have hc : isWs c = false := by
      have := List.head?_dropWhile_not isWs l
      rw [← hm, hh] at this
      exact this
    have := head_trimR_of_head hh hc
    apply dropWhile_eq_self_of_head
    intro w
    have hhead : (trimR m).head w = c := by
      have h2 := List.head?_eq_head (l := trimR m) w
      rw [this] at h2
      simpa using h2.symm
    rw [hhead]
    exact hc

theorem trim_idem (l : Str) : trim (trim l) = trim l := by
  conv_lhs => rw [trim_eq_trimR, dropWhile_trim_eq, trim_eq_trimR]
  rw [trimR_trimR]
  exact (trim_eq_trimR l).symm

theorem filterNW_trimR (l : Str) : filterNW (trimR l) = filterNW l := by
  unfold trimR filterNW
  rw [List.filter_reverse]
  conv_rhs => rw [← List.reverse_reverse l]
  rw [List.filter_reverse]
  congr 1
  conv_rhs => rw [← List.takeWhile_append_dropWhile (p := isWs) (l := l.reverse)]
  rw [List.filter_append]
  have : (l.reverse.takeWhile isWs).filter (fun c => !isWs c) = [] := by
    rw [List.filter_eq_nil_iff]
    intro a ha
    simp [List.mem_takeWhile_imp ha]
  rw [this, List.nil_append]

theorem filterNW_trim (l : Str) : filterNW (trim l) = filterNW l := by
  rw [trim_eq_trimR, filterNW_trimR]
  unfold filterNW
  conv_rhs => rw [← List.takeWhile_append_dropWhile (p := isWs) (l := l)]
  rw [List.filter_append]
  have : (l.takeWhile isWs).filter (fun c => !isWs c) = [] := by
    rw [List.filter_eq_nil_iff]
    intro a ha
    simp [List.mem_takeWhile_imp ha]
  rw [this, List.nil_append]

theorem mem_replCRLF {l : Str} :
    ∀ {c : Char}, c ∈ replCRLF l → c = '\n' ∨ c ∈ l := by
  induction l using replCRLF.induct with
  | case1 => intro c h; simp [replCRLF] at h
  | case2 d => intro c h; simp only [replCRLF] at h; simp_all
  | case3 a d rest hcr ih =>
    intro c h
    rw [replCRLF, if_pos hcr] at h
    rcases List.mem_cons.mp h with h | h
    · left; exact h
    · rcases ih h with h | h
      · left; exact h
      · right; simp [h]
  | case4 a d rest hcr ih =>
    intro c h
    rw [replCRLF, if_neg hcr] at h
    rcases List.mem_cons.mp h with h | h
    · right; simp [h]
    · rcases ih h with h | h
      · left; exact h
      · right; simp_all

theorem replCRLF_eq_self {l : Str} (h : '\r' ∉ l) : replCRLF l = l := by
  induction l using replCRLF.induct with
  | case1 => rfl
  | case2 d => rfl
  | case3 a d rest hcr ih =>
    exfalso
    apply h
    have : a = '\r' := by
      have := hcr
      simp only [Bool.and_eq_true, decide_eq_true_eq] at this
      exact this.1
    simp [this]
  | case4 a d rest hcr ih =>
    rw [replCRLF, if_neg hcr]
    congr 1
    apply ih
    intro hm
    exact h (List.mem_cons_of_mem _ hm)

theorem mem_mapCR {l : Str} {c : Char} (h : c ∈ mapCR l) :
    c = '\n' ∨ (c ∈ l ∧ c ≠ '\r') := by
  unfold mapCR at h
  rcases List.mem_map.mp h with ⟨d, hd, hdc⟩
  by_cases hr : d = '\r'
  · left
    rw [← hdc, if_pos hr]
  · right
    rw [← hdc, if_neg hr]
    exact ⟨hd, hr⟩

theorem not_cr_mem_mapCR {l : Str} : '\r' ∉ mapCR l := by
  intro h
  rcases mem_mapCR h with h | ⟨_, h⟩
  · exact absurd h (by decide)
  · exact h rfl

theorem mapCR_eq_self {l : Str} (h : '\r' ∉ l) : mapCR l = l := by
  unfold mapCR
  have : ∀ c ∈ l, (if c = '\r' then '\n' else c) = c := by
    intro c hc
    rw [if_neg]
    intro hr
    exact h (hr ▸ hc)
  rw [List.map_congr_left this, List.map_id']

theorem mem_scrub {bad : Char → Bool} {s : Str} {c : Char} (h : c ∈ scrub bad s)
    (hnl : bad '\n' = false) : bad c = false ∧ c ≠ '\r' := by
  unfold scrub at h
  rcases mem_mapCR h with h | ⟨h, hr⟩
  · subst h
    exact ⟨hnl, by decide⟩
  · rcases mem_replCRLF h with h2 | h2
    · subst h2
      exact ⟨hnl, by decide⟩
    · exact ⟨by simpa using List.of_mem_filter h2, hr⟩

theorem scrub_idem (bad : Char → Bool) (hnl : bad '\n' = false) (s : Str) :
    scrub bad (scrub bad s) = scrub bad s := by
  have hmem : ∀ c ∈ scrub bad s, bad c = false ∧ c ≠ '\r' :=
    fun c hc => mem_scrub hc hnl
  have hfilter : (scrub bad s).filter (fun c => !bad c) = scrub bad s := by
    rw [List.filter_eq_self]
    intro a ha
    simp [(hmem a ha).1]
  have hnocr : '\r' ∉ scrub bad s := by
    intro h
    exact (hmem _ h).2 rfl
  conv_lhs => rw [scrub, hfilter, replCRLF_eq_self hnocr, mapCR_eq_self hnocr]

theorem groupByGo_flatten {α : Type} :
    ∀ (fuel : Nat) (l : List α) (size : Nat), l.length ≤ fuel →
      (groupByGo fuel l size).flatten = l := by
  intro fuel
  induction fuel with
  | zero =>
    intro l size hl
    have : l = [] := List.eq_nil_of_length_eq_zero (by omega)
    subst this
    rfl
  | succ fuel ih =>
    intro l size hl
    cases l with
    | nil => rfl
    | cons a rest =>
      simp only [List.length_cons] at hl
      rw [groupByGo]
      simp only [List.flatten_cons]
      rw [ih (rest.drop (size - 1)) size (by simp only [List.length_drop]; omega)]
      simp [List.take_append_drop]

theorem groupBy_flatten {α : Type} (l : List α) (size : Nat) :
    (groupBy l size).flatten = l :=
  groupByGo_flatten l.length l size le_rfl

theorem length_le_of_mem_groupByGo {α : Type} :
    ∀ (fuel : Nat) (l : List α) (size : Nat) (q : List α),
      1 ≤ size → l.length ≤ fuel → q ∈ groupByGo fuel l size →
      q.length ≤ size := by
  intro fuel
  induction fuel with
  | zero =>
    intro l size q hs hl hq
    have : l = [] := List.eq_nil_of_length_eq_zero (by omega)
    subst this
    simp [groupByGo] at hq
  | succ fuel ih =>
    intro l size q hs hl hq
    cases l with
    | nil => simp [groupByGo] at hq
    | cons a rest =>
      simp only [List.length_cons] at hl
      rw [groupByGo] at hq
      rcases List.mem_cons.mp hq with h | h
      · subst h
        simp only [List.length_cons]
        have := List.length_take_le (size - 1) rest
        omega
      · exact ih (rest.drop (size - 1)) size q hs
          (by simp only [List.length_drop]; omega) h

theorem ne_nil_of_mem_groupByGo {α : Type} :
    ∀ (fuel : Nat) (l : List α) (size : Nat) (q : List α),
      q ∈ groupByGo fuel l size → q ≠ [] := by
  intro fuel
  induction fuel with
  | zero =>
    intro l size q hq
    cases l with
    | nil => simp [groupByGo] at hq
    | cons a rest =>
      have hg : groupByGo 0 (a :: rest) size = [a :: rest] := rfl
      rw [hg] at hq
      rw [List.mem_singleton.mp hq]
      simp
  | succ fuel ih =>
    intro l size q hq
    cases l with
    | nil => simp [groupByGo] at hq
    | cons a rest =>
      rw [groupByGo] at hq
      rcases List.mem_cons.mp hq with h | h
      · subst h; simp
      · exact ih (rest.drop (size - 1)) size q h

theorem length_le_of_mem_groupBy {α : Type} {l : List α} {size : Nat} {q : List α}
    (hsize : 1 ≤ size) (hq : q ∈ groupBy l size) : q.length ≤ size :=
  length_le_of_mem_groupByGo l.length l size q hsize le_rfl hq

theorem ne_nil_of_mem_groupBy {α : Type} {l : List α} {size : Nat} {q : List α}
    (hq : q ∈ groupBy l size) : q ≠ [] :=
  ne_nil_of_mem_groupByGo l.length l size q hq

theorem groupBy_ne_nil {α : Type} {l : List α} {size : Nat} (h : l ≠ []) :
    groupBy l size ≠ [] := by
  cases l with
  | nil => exact absurd rfl h
  | cons a rest => rw [groupBy, List.length_cons, groupByGo]; simp

theorem splitOnPred_ne_nil {p : Char → Bool} {l : Str} : splitOnPred p l ≠ [] := by
  cases l with
  | nil => simp [splitOnPred]
  | cons c rest =>
    rw [splitOnPred]
    by_cases h : p c = true
    · simp [h]
    · simp only [h]
      rw [if_neg (by simp [h])]
      rcases hs : splitOnPred p rest with _ | ⟨a, b⟩ <;> simp

theorem splitOnPred_flatten (p : Char → Bool) (l : Str) :
    (splitOnPred p l).flatten = l.filter (fun c => !p c) := by
  induction l with
  | nil => simp [splitOnPred]
  | cons c rest ih =>
    rw [splitOnPred]
    by_cases h : p c = true
    · rw [if_pos h]
      simp [List.filter_cons, h, ih]
    · rw [if_neg h]
      rcases hs : splitOnPred p rest with _ | ⟨a, b⟩
      · exact absurd hs splitOnPred_ne_nil
      · rw [hs] at ih
        simp only [List.flatten_cons] at ih ⊢
        simp [List.filter_cons, h, ← ih]

theorem exists_mem_splitOnPred {p : Char → Bool} {l : Str} {c : Char}
    (hc : c ∈ l) (hp : p c = false) : ∃ seg ∈ splitOnPred p l, c ∈ seg := by
  induction l with
  | nil => simp at hc
  | cons d rest ih =>
    rw [splitOnPred]
    rcases List.mem_cons.mp hc with h | h
    · subst h
      rw [if_neg (by simp [hp])]
      rcases hs : splitOnPred p rest with _ | ⟨a, b⟩
      · exact absurd hs splitOnPred_ne_nil
      · exact ⟨c :: a, by simp⟩
    · by_cases hd : p d = true
      · rw [if_pos hd]
        rcases ih h with ⟨seg, hseg, hcseg⟩
        exact ⟨seg, by simp [hseg], hcseg⟩
      · rw [if_neg hd]
        rcases hs : splitOnPred p rest with _ | ⟨a, b⟩
        · exact absurd hs splitOnPred_ne_nil
        · rcases ih h with ⟨seg, hseg, hcseg⟩
          rw [hs] at hseg
          rcases List.mem_cons.mp hseg with h2 | h2
          · exact ⟨d :: a, by simp, by subst h2; simp [hcseg]⟩
          · exact ⟨seg, by simp [h2], hcseg⟩

theorem flatten_map_flatten {α : Type} (L : List (List (List α))) :
    L.flatten.flatten = (L.map List.flatten).flatten := by
  induction L with
  | nil => simp
  | cons x rest ih => simp [List.flatten_append, ih]

theorem flatten_filter_ne_nil {α : Type} (L : List (List α)) :
    (L.filter (fun s => !s.isEmpty)).flatten = L.flatten := by
  induction L with
  | nil => simp
  | cons x rest ih =>
    rw [List.filter_cons]
    by_cases h : x = []
    · subst h; simpa using ih
    · rw [if_pos (by simpa [List.isEmpty_iff] using h)]
      simp [ih]

theorem jsMatchAll_flatten (p : Str) (max : Nat) :
    (jsMatchAll p max).flatten = p.filter (fun c => !isLineTerm c) := by
  unfold jsMatchAll
  rw [flatten_map_flatten, List.map_map]
  have h2 : (List.flatten ∘ fun seg => groupBy seg max) = (id : Str → Str) := by
    funext seg
    simp [Function.comp, groupBy_flatten]
  rw [h2, List.map_id]
  rw [flatten_filter_ne_nil, splitOnPred_flatten]

theorem jsMatchAll_ne_nil {p : Str} {max : Nat} {c : Char}
    (hc : c ∈ p) (hw : isWs c = false) : jsMatchAll p max ≠ [] := by
  intro h
  have h1 : (jsMatchAll p max).flatten = [] := by rw [h]; rfl
  rw [jsMatchAll_flatten] at h1
  rw [List.filter_eq_nil_iff] at h1
  have hterm : isLineTerm c = false := by
    rcases hb : isLineTerm c with _ | _
    · rfl
    · exact absurd (isLineTerm_isWs hb) (by simp [hw])
  exact h1 c hc (by simp [hterm])

theorem length_le_of_mem_jsMatchAll {p : Str} {max : Nat} {q : Str}
    (hmax : 1 ≤ max) (hq : q ∈ jsMatchAll p max) : q.length ≤ max := by
  unfold jsMatchAll at hq
  rcases List.mem_flatten.mp hq with ⟨gl, hgl, hqgl⟩
  rcases List.mem_map.mp hgl with ⟨seg, _, hseg⟩
  exact length_le_of_mem_groupBy hmax (hseg ▸ hqgl)

theorem trim_buf_length_le {max : Nat} {buf : Str}
    (h : buf = [] ∨ ∃ x, buf = x ++ ['\n'] ∧ x.length ≤ max) :
    (trim buf).length ≤ max := by
  rcases h with h | ⟨x, hx, hlen⟩
  · subst h
    simp [trim]
  · subst hx
    rw [trim_append_ws (by decide)]
    exact le_trans (length_trim_le x) hlen

theorem feedPart_sizeInv {max : Nat} {st : List Str × Str} {part : Str}
    (hpart : part.length ≤ max) (h : SizeInv max st) :
    SizeInv max (feedPart max st part) := by
  rcases st with ⟨chunks, buf⟩
  rcases h with ⟨hchunks, hbuf⟩
  unfold feedPart
  by_cases hov : buf.length + part.length + 1 > max
  · rw [if_pos hov]
    refine ⟨?_, Or.inr ⟨part, rfl, hpart⟩⟩
    by_cases htr : trim buf ≠ []
    · rw [if_pos htr]
      intro c hc
      rcases List.mem_append.mp hc with h1 | h1
      · exact hchunks c h1
      · rw [List.mem_singleton.mp h1]
        exact trim_buf_length_le hbuf
    · rw [if_neg htr]
      exact hchunks
  · rw [if_neg hov]
    refine ⟨hchunks, Or.inr ⟨buf ++ part, by simp, ?_⟩⟩
    simp only [List.length_append]
    omega

theorem foldl_feedPart_sizeInv {max : Nat} {parts : List Str}
    (hparts : ∀ q ∈ parts, q.length ≤ max) :
    ∀ {st : List Str × Str}, SizeInv max st →
      SizeInv max (parts.foldl (feedPart max) st) := by
  induction parts with
  | nil => intro st h; exact h
  | cons q rest ih =>
    intro st h
    rw [List.foldl_cons]
    exact ih (fun r hr => hparts r (List.mem_cons_of_mem _ hr))
      (feedPart_sizeInv (hparts q (List.mem_cons_self _ _)) h)

theorem jsParts_eq_of_ne_nil {p : Str} {max : Nat} (h : jsMatchAll p max ≠ []) :
    jsParts p max = jsMatchAll p max := by
  unfold jsParts
  rcases hm : jsMatchAll p max with _ | ⟨a, b⟩
  · exact absurd hm h
  · rfl

theorem feedPara_sizeInv {max : Nat} {st : List Str × Str} {p : Str}
    (hmax : 1 ≤ max) (hp : trim p ≠ []) (h : SizeInv max st) :
    SizeInv max (feedPara max st p) := by
  unfold feedPara
  by_cases hlen : p.length > max
  · rw [if_pos hlen]
    have hex : ∃ c ∈ p, isWs c = false := by
      by_contra hall
      push_neg at hall
      exact hp (trim_eq_nil_iff.mpr (by
        intro c hc
        rcases hb : isWs c with _ | _
        · exact absurd hb (hall c hc)
        · rfl))
    rcases hex with ⟨c, hc, hw⟩
    rw [jsParts_eq_of_ne_nil (jsMatchAll_ne_nil hc hw)]
    exact foldl_feedPart_sizeInv
      (fun q hq => length_le_of_mem_jsMatchAll hmax hq) h
  · rw [if_neg hlen]
    exact feedPart_sizeInv (by omega) h

theorem foldl_feedPara_sizeInv {max : Nat} {paras : List Str}
    (hmax : 1 ≤ max) (hparas : ∀ p ∈ paras, trim p ≠ []) :
    ∀ {st : List Str × Str}, SizeInv max st →
      SizeInv max (paras.foldl (feedPara max) st) := by
  induction paras with
  | nil => intro st h; exact h
  | cons p rest ih =>
    intro st h
    rw [List.foldl_cons]
    exact ih (fun r hr => hparas r (List.mem_cons_of_mem _ hr))
      (feedPara_sizeInv hmax (hparas p (List.mem_cons_self _ _)) h)

/-- C5: for every input text and maximum budget `max ≥ 1`, every chunk
returned by `chunkText text max` has length at most `max`, including
when a paragraph longer than `max` is hard-split and re-buffered. -/
theorem chunkText_chunks_within_budget (text : Str) (max : Nat)
    (hmax : 1 ≤ max) : ∀ c ∈ chunkText text max, c.length ≤ max := by
  intro c hc
  unfold chunkText at hc
  simp only at hc
  set paras := (splitOnPred (fun c => c = '\n') text).filter
    (fun p => !(trim p).isEmpty) with hparas_def
  have hparas : ∀ p ∈ paras, trim p ≠ [] := by
    intro p hp
    have := List.of_mem_filter hp
    simpa [List.isEmpty_iff] using this
  have hst : SizeInv max (paras.foldl (feedPara max) ([], [])) :=
    foldl_feedPara_sizeInv hmax hparas ⟨by simp, Or.inl rfl⟩
  set st := paras.foldl (feedPara max) ([], []) with hst_def
  rcases hst with ⟨hchunks, hbuf⟩
  by_cases htr : trim st.2 ≠ []
  · rw [if_pos htr] at hc
    rcases List.mem_append.mp hc with h1 | h1
    · exact hchunks c h1
    · rw [List.mem_singleton.mp h1]
      exact trim_buf_length_le hbuf
  · rw [if_neg htr] at hc
    exact hchunks c hc

/-- Witness for C5 at a concrete input: the text has an 11-character
paragraph, the budget is 8, and the first chunk fits the budget. -/
theorem chunkText_chunks_within_budget_witness :
    ('h' :: "ello wo".toList) ∈ chunkText "hello world\nfoo".toList 8 ∧
      ('h' :: "ello wo".toList).length ≤ 8 := by
  refine ⟨by decide, ?_⟩
  exact chunkText_chunks_within_budget "hello world\nfoo".toList 8 (by decide)
    _ (by decide)

theorem filterNW_append (a b : Str) :
    filterNW (a ++ b) = filterNW a ++ filterNW b := by
  unfold filterNW
  rw [List.filter_append]

theorem filterNW_nl : filterNW ['\n'] = [] := by decide

theorem filterNW_filter_of_imp {p : Char → Bool}
    (himp : ∀ c, p c = true → isWs c = true) (l : Str) :
    filterNW (l.filter (fun c => !p c)) = filterNW l := by
  unfold filterNW
  rw [List.filter_filter]
  apply List.filter_congr
  intro c _
  rcases hw : isWs c with _ | _
  · have hp : p c = false := by
      rcases hb : p c with _ | _
      · rfl
      · exact absurd (himp c hb) (by simp [hw])
    simp [hp, hw]
  · simp [hw]

theorem feedPart_filterNW (max : Nat) (st : List Str × Str) (part : Str) :
    filterNW ((feedPart max st part).1.flatten ++ (feedPart max st part).2) =
      filterNW (st.1.flatten ++ st.2) ++ filterNW part := by
  rcases st with ⟨chunks, buf⟩
  simp only [feedPart]
  by_cases hov : buf.length + part.length + 1 > max
  · rw [if_pos hov]
    by_cases htr : trim buf ≠ []
    · rw [if_pos htr]
      simp only [List.flatten_append, List.flatten_cons, List.flatten_nil,
        List.append_nil, filterNW_append, filterNW_nl, filterNW_trim,
        List.append_assoc, List.append_nil]
    · rw [if_neg htr]
      push_neg at htr
      have hbuf : filterNW buf = [] := by
        rw [← filterNW_trim, htr]; rfl
      simp only [filterNW_append, filterNW_nl, hbuf, List.append_nil,
        List.append_assoc]
  · rw [if_neg hov]
    simp only [filterNW_append, filterNW_nl, List.append_nil, List.append_assoc]

theorem foldl_feedPart_filterNW (max : Nat) (parts : List Str) :
    ∀ st : List Str × Str,
      filterNW ((parts.foldl (feedPart max) st).1.flatten ++
          (parts.foldl (feedPart max) st).2) =
        filterNW (st.1.flatten ++ st.2) ++ filterNW parts.flatten := by
  induction parts with
  | nil => intro st; simp [filterNW]
  | cons q rest ih =>
    intro st
    rw [List.foldl_cons, ih, feedPart_filterNW]
    simp [filterNW_append, List.append_assoc]

theorem jsParts_flatten_filterNW (p : Str) (max : Nat) :
    filterNW (jsParts p max).flatten = filterNW p := by
  rcases hm : jsMatchAll p max with _ | ⟨a, b⟩
  · unfold jsParts
    rw [hm]
    simp
  · rw [jsParts_eq_of_ne_nil (by rw [hm]; simp), jsMatchAll_flatten]
    exact filterNW_filter_of_imp (fun c => isLineTerm_isWs) p

theorem feedPara_filterNW (max : Nat) (st : List Str × Str) (p : Str) :
    filterNW ((feedPara max st p).1.flatten ++ (feedPara max st p).2) =
      filterNW (st.1.flatten ++ st.2) ++ filterNW p := by
  unfold feedPara
  by_cases hlen : p.length > max
  · rw [if_pos hlen, foldl_feedPart_filterNW, jsParts_flatten_filterNW]
  · rw [if_neg hlen, feedPart_filterNW]

theorem foldl_feedPara_filterNW (max : Nat) (paras : List Str) :
    ∀ st : List Str × Str,
      filterNW ((paras.foldl (feedPara max) st).1.flatten ++
          (paras.foldl (feedPara max) st).2) =
        filterNW (st.1.flatten ++ st.2) ++ filterNW paras.flatten := by
  induction paras with
  | nil => intro st; simp [filterNW]
  | cons p rest ih =>
    intro st
    rw [List.foldl_cons, ih, feedPara_filterNW]
    simp [filterNW_append, List.append_assoc]

theorem filterNW_flatten_filter_blank (L : List Str) :
    filterNW ((L.filter (fun p => !(trim p).isEmpty)).flatten) =
      filterNW L.flatten := by
  induction L with
  | nil => rfl
  | cons p rest ih =>
    rw [List.filter_cons]
    by_cases h : (trim p).isEmpty = true
    · have hp : filterNW p = [] := by
        rw [← filterNW_trim, List.isEmpty_iff.mp h]; rfl
      rw [if_neg (by simp [h])]
      rw [ih, List.flatten_cons, filterNW_append, hp, List.nil_append]
    · rw [if_pos (by simpa [List.isEmpty_iff] using h)]
      simp only [List.flatten_cons, filterNW_append, ih]

theorem chunkText_filterNW (text : Str) (max : Nat) :
    filterNW (chunkText text max).flatten = filterNW text := by
  unfold chunkText
  simp only
  set paras := (splitOnPred (fun c => c = '\n') text).filter
    (fun p => !(trim p).isEmpty) with hparas
  set st := paras.foldl (feedPara max) ([], []) with hst
  have hG : filterNW (st.1.flatten ++ st.2) = filterNW paras.flatten := by
    rw [hst, foldl_feedPara_filterNW]
    simp [filterNW]
  have hparasF : filterNW paras.flatten = filterNW text := by
    rw [hparas, filterNW_flatten_filter_blank, splitOnPred_flatten]
    exact filterNW_filter_of_imp (fun c hc => by
      simp only [decide_eq_true_eq] at hc
      simp [isWs, hc]) text
  by_cases htr : trim st.2 ≠ []
  · rw [if_pos htr]
    rw [List.flatten_append, List.flatten_cons, List.flatten_nil, List.append_nil,
      filterNW_append, filterNW_trim, ← filterNW_append, hG, hparasF]
  · rw [if_neg htr]
    push_neg at htr
    have hbuf : filterNW st.2 = [] := by
      rw [← filterNW_trim, htr]; rfl
    have := hG
    rw [filterNW_append, hbuf, List.append_nil] at this
    rw [this, hparasF]

theorem ceil_div_mul_le (len n : Nat) (hn : 1 ≤ n) :
    len ≤ n * ((len + n - 1) / n) := by
  have h := Nat.div_add_mod (len + n - 1) n
  have h2 : (len + n - 1) % n < n := Nat.mod_lt _ (by omega)
  omega

theorem slices_flatten (t : Str) (per : Nat) :
    ∀ n : Nat,
      ((List.range n).map (fun i => (t.drop (i * per)).take per)).flatten =
        t.take (n * per) := by
  intro n
  induction n with
  | zero => simp
  | succ n ih =>
    rw [List.range_succ, List.map_append, List.flatten_append, ih]
    simp only [List.map_cons, List.map_nil, List.flatten_cons, List.flatten_nil,
      List.append_nil]
    rw [← List.take_add]
    congr 1
    ring

theorem slice_take_eq (t : Str) (per i len : Nat) (hlen : len = t.length) :
    (t.drop (i * per)).take (Nat.min ((i + 1) * per) len - i * per) =
      (t.drop (i * per)).take per := by
  subst hlen
  rw [List.take_eq_take]
  have hmul : (i + 1) * per = i * per + per := by ring
  rw [List.length_drop, hmul]
  simp only [Nat.min_def, min_def]
  split_ifs <;> omega

theorem splitTextByPages_flatten_untrimmed (t : Str) (n : Nat) (hn : 2 ≤ n) :
    ((List.range n).map (fun i =>
        (t.drop (i * ((((if t.length = 0 then 1 else t.length) + n - 1) / n)))).take
          (Nat.min ((i + 1) * (((if t.length = 0 then 1 else t.length) + n - 1) / n))
              (if t.length = 0 then 1 else t.length) -
            i * (((if t.length = 0 then 1 else t.length) + n - 1) / n)))).flatten = t := by
  by_cases htn : t = []
  · subst htn
    simp [List.flatten_eq_nil_iff]
  · have ht0 : ¬ t.length = 0 := by simpa [List.length_eq_zero] using htn
    simp only [if_neg ht0]
    have hcong : ∀ i ∈ List.range n,
        (t.drop (i * ((t.length + n - 1) / n))).take
            (Nat.min ((i + 1) * ((t.length + n - 1) / n)) t.length -
              i * ((t.length + n - 1) / n)) =
          (t.drop (i * ((t.length + n - 1) / n))).take ((t.length + n - 1) / n) := by
      intro i _
      exact slice_take_eq t _ i t.length rfl
    rw [List.map_congr_left hcong, slices_flatten]
    exact List.take_of_length_le (ceil_div_mul_le _ _ (by omega))

theorem filterNW_flatten_map_trim (L : List Str) :
    filterNW ((L.map trim).flatten) = filterNW L.flatten := by
  induction L with
  | nil => rfl
  | cons p rest ih =>
    simp only [List.map_cons, List.flatten_cons, filterNW_append, ih,
      filterNW_trim]

theorem splitTextByPages_filterNW (t : Str) (n : Nat) :
    filterNW (splitTextByPages t n).flatten = filterNW t := by
  unfold splitTextByPages
  by_cases hn : n ≤ 1
  · rw [if_pos hn]
    simp
  · rw [if_neg hn]
    simp only
    rw [filterNW_flatten_map_trim]
    congr 1
    exact splitTextByPages_flatten_untrimmed t n (by omega)

theorem filterNW_joinSep (sep : Str) (hsep : filterNW sep = []) (L : List Str) :
    filterNW (joinSep sep L) = filterNW L.flatten := by
  induction L using joinSep.induct sep with
  | case1 => rfl
  | case2 a => simp [joinSep]
  | case3 a rest hne ih =>
    rcases rest with _ | ⟨b, t⟩
    · exact absurd rfl hne
    · have hj : joinSep sep (a :: b :: t) = a ++ sep ++ joinSep sep (b :: t) := rfl
      rw [hj]
      simp only [List.flatten_cons, filterNW_append, hsep, List.append_nil,
        List.nil_append, ih]

theorem pageUnits_filterNW (t : Str) (n k : Nat) :
    filterNW (pageUnits t n k).flatten = filterNW t := by
  unfold pageUnits
  have h : ∀ G : List (List Str),
      filterNW ((G.map (joinSep ['\n', '\n'])).flatten) =
        filterNW G.flatten.flatten := by
    intro G
    induction G with
    | nil => rfl
    | cons g rest ih =>
      simp only [List.map_cons, List.flatten_cons, filterNW_append, ih]
      rw [filterNW_joinSep ['\n', '\n'] (by decide)]
      rw [List.flatten_append, filterNW_append]
  rw [h, groupBy_flatten, splitTextByPages_filterNW]

/-- C6: concatenating the chunker's output unit texts in index order
reproduces the original text modulo whitespace normalization (no
non-whitespace content dropped or reordered), in character-budget mode
(`chunkText`) as well as in page-count mode (`splitTextByPages` grouped
into page chunks joined by blank lines). -/
theorem chunker_preserves_content (text : Str) (max numPages chunkSizePages : Nat) :
    filterNW (chunkText text max).flatten = filterNW text ∧
      filterNW (pageUnits text numPages chunkSizePages).flatten = filterNW text :=
  ⟨chunkText_filterNW text max, pageUnits_filterNW text numPages chunkSizePages⟩

/-- C8: both sanitation functions are idempotent — sanitizing
already-sanitized text is a no-op. -/
theorem sanitize_idempotent (s : Str) :
    sanitize (sanitize s) = sanitize s ∧
      sanitizeDocx (sanitizeDocx s) = sanitizeDocx s :=
  ⟨scrub_idem isCtl (by decide) s, scrub_idem isCtlDocx (by decide) s⟩

theorem feedPart_trimInv {max : Nat} {st : List Str × Str} {part : Str}
    (h : TrimInv st) : TrimInv (feedPart max st part) := by
  rcases st with ⟨chunks, buf⟩
  unfold feedPart
  by_cases hov : buf.length + part.length + 1 > max
  · rw [if_pos hov]
    by_cases htr : trim buf ≠ []
    · rw [if_pos htr]
      intro c hc
      rcases List.mem_append.mp hc with h1 | h1
      · exact h c h1
      · rw [List.mem_singleton.mp h1]
        exact ⟨trim_idem buf, htr⟩
    · rw [if_neg htr]
      exact h
  · rw [if_neg hov]
    exact h

theorem foldl_feedPart_trimInv {max : Nat} {parts : List Str} :
    ∀ {st : List Str × Str}, TrimInv st →
      TrimInv (parts.foldl (feedPart max) st) := by
  induction parts with
  | nil => intro st h; exact h
  | cons q rest ih =>
    intro st h
    rw [List.foldl_cons]
    exact ih (feedPart_trimInv h)

theorem feedPara_trimInv {max : Nat} {st : List Str × Str} {p : Str}
    (h : TrimInv st) : TrimInv (feedPara max st p) := by
  unfold feedPara
  by_cases hlen : p.length > max
  · rw [if_pos hlen]
    exact foldl_feedPart_trimInv h
  · rw [if_neg hlen]
    exact feedPart_trimInv h

theorem foldl_feedPara_trimInv {max : Nat} {paras : List Str} :
    ∀ {st : List Str × Str}, TrimInv st →
      TrimInv (paras.foldl (feedPara max) st) := by
  induction paras with
  | nil => intro st h; exact h
  | cons p rest ih =>
    intro st h
    rw [List.foldl_cons]
    exact ih (feedPara_trimInv h)

/-- C9 (amended): in character-budget mode (`chunkText`), every emitted
work-unit text is trimmed and nonblank — blank paragraphs are dropped
before buffering and only nonblank trimmed buffers are flushed.  (In
page-count mode the code merely trims pages: blank pages are retained,
grouped, and admitted to execution — see the counterexample.) -/
theorem chunkText_chunks_trimmed_nonblank (text : Str) (max : Nat) :
    ∀ c ∈ chunkText text max, trim c = c ∧ c ≠ [] := by
  intro c hc
  unfold chunkText at hc
  simp only at hc
  set paras := (splitOnPred (fun c => c = '\n') text).filter
    (fun p => !(trim p).isEmpty) with hparas_def
  set st := paras.foldl (feedPara max) ([], []) with hst_def
  have hst : TrimInv st := foldl_feedPara_trimInv (by intro c hc; simp at hc)
  by_cases htr : trim st.2 ≠ []
  · rw [if_pos htr] at hc
    rcases List.mem_append.mp hc with h1 | h1
    · exact hst c h1
    · rw [List.mem_singleton.mp h1]
      exact ⟨trim_idem st.2, htr⟩
  · rw [if_neg htr] at hc
    exact hst c hc

theorem map_mapIdx2 {α β γ : Type} (g : β → γ) (f : Nat → α → β) (l : List α) :
    (l.mapIdx f).map g = l.mapIdx (fun i a => g (f i a)) := by
  induction l generalizing f with
  | nil => simp
  | cons a rest ih => simp [List.mapIdx_cons, ih]

theorem mapIdx_congr2 {α β : Type} :
    ∀ (f g : Nat → α → β) (l : List α), (∀ i a, f i a = g i a) →
      l.mapIdx f = l.mapIdx g := by
  intro f g l
  induction l generalizing f g with
  | nil => intro h; simp
  | cons a rest ih =>
    intro h
    simp only [List.mapIdx_cons, h 0 a]
    rw [ih _ _ (fun i a => h (i + 1) a)]

theorem admitted_not_exceeded (exceeded : Nat → Bool) :
    ∀ (batches : List (List (List Str))) (b j : Nat),
      j < admittedCount exceeded b batches → exceeded (2 * (b + j)) = false := by
  intro batches
  induction batches with
  | nil => intro b j hj; simp [admittedCount] at hj
  | cons batch rest ih =>
    intro b j hj
    rw [admittedCount] at hj
    by_cases h0 : exceeded (2 * b)
    · rw [if_pos h0] at hj; omega
    · rw [if_neg h0] at hj
      by_cases h1 : exceeded (2 * b + 1)
      · rw [if_pos h1] at hj
        have : j = 0 := by omega
        subst this
        simpa using (by simpa using h0 : exceeded (2 * b) = false)
      · rw [if_neg h1] at hj
        rcases j with _ | j'
        · simpa using (by simpa using h0 : exceeded (2 * b) = false)
        · have := ih (b + 1) j' (by omega)
          have harith : 2 * (b + 1 + j') = 2 * (b + (j' + 1)) := by ring
          rw [harith] at this
          exact this

theorem batchLoop_translated_eq (w : World) (tc nb : Nat) :
    ∀ (batches : List (List (List Str))) (b d f : Nat),
      (batchLoop w tc nb batches b d f).translated =
        ((batches.take (admittedCount w.exceeded b batches)).mapIdx
          (fun j batch => batch.mapIdx
            (fun i pages =>
              (execUnit w ((b + j) * PARALLEL_LIMIT + i + 1) pages).res.text))).flatten := by
  intro batches
  induction batches with
  | nil => intro b d f; simp [batchLoop, admittedCount]
  | cons batch rest ih =>
    intro b d f
    by_cases h0 : w.exceeded (2 * b)
    · simp [batchLoop, admittedCount, h0]
    · by_cases h1 : w.exceeded (2 * b + 1)
      · simp only [batchLoop, admittedCount, h0, h1, Bool.false_eq_true,
          if_false, if_true, List.take_succ_cons, List.take_zero,
          List.mapIdx_cons, List.mapIdx_nil, List.flatten_cons,
          List.flatten_nil, List.append_nil]
        rw [map_mapIdx2]
        rfl
      · simp only [batchLoop, admittedCount, h0, h1, Bool.false_eq_true,
          if_false, List.take_succ_cons, List.mapIdx_cons, List.flatten_cons]
        rw [ih, map_mapIdx2]
        refine congrArg₂ (· ++ ·) rfl ?_
        apply congrArg List.flatten
        apply mapIdx_congr2
        intro j batch2
        have harith : b + 1 + j = b + (j + 1) := by omega
        rw [harith]

theorem failEvents_benign (idx label : Nat) (fo : AttemptOutcome) :
    (failEvents idx label fo).all benignEv = true := by
  cases fo <;> simp [failEvents, benignEv, isErrorEv, isCompletedEv]

theorem attemptLoop_events_benign (oracle : Nat → AttemptOutcome) (idx : Nat) :
    ∀ (remaining attempt : Nat),
      ((attemptLoop oracle idx attempt remaining).events.all benignEv) = true := by
  intro remaining
  induction remaining with
  | zero =>
    intro attempt
    rcases h : oracle attempt with raw | m | _ <;>
      simp [attemptLoop, h, benignEv, isErrorEv, isCompletedEv, failEvents]
  | succ remaining ih =>
    intro attempt
    rcases h : oracle attempt with raw | m | _ <;>
      simp [attemptLoop, h, benignEv, isErrorEv, isCompletedEv, failEvents,
        List.all_append, ih (attempt + 1)]

theorem settleEvents_benign (tc : Nat) :
    ∀ (rs : List ExecOut) (done failed : Nat),
      (settleEvents tc done failed rs).all benignEv = true := by
  intro rs
  induction rs with
  | nil => intro done failed; rfl
  | cons r rest ih =>
    intro done failed
    simp [settleEvents, benignEv, isErrorEv, isCompletedEv, ih]

theorem batchLoop_events_benign (w : World) (tc nb : Nat) :
    ∀ (batches : List (List (List Str))) (b d f : Nat),
      (batchLoop w tc nb batches b d f).events.all benignEv = true := by
  intro batches
  induction batches with
  | nil => intro b d f; rfl
  | cons batch rest ih =>
    intro b d f
    by_cases h0 : w.exceeded (2 * b)
    · simp [batchLoop, h0, benignEv, isErrorEv, isCompletedEv]
    · have htasks : ((batch.mapIdx (fun i pages =>
          execUnit w (b * PARALLEL_LIMIT + i + 1) pages)).map
            ExecOut.events).flatten.all benignEv = true := by
        rw [List.all_eq_true]
        intro e he
        rcases List.mem_flatten.mp he with ⟨evs, hevs, hee⟩
        rcases List.mem_map.mp hevs with ⟨ex, hex, hexe⟩
        rcases List.mem_mapIdx.mp hex with ⟨i, _, hexeq⟩
        have hall := attemptLoop_events_benign (w.attempt (b * PARALLEL_LIMIT + i + 1))
          (b * PARALLEL_LIMIT + i + 1) CHUNK_REQUEST_RETRIES 0
        rw [List.all_eq_true] at hall
        apply hall
        rw [← hexe, ← hexeq] at hee
        simpa [execUnit, translateChunkWithRetries] using hee
      by_cases h1 : w.exceeded (2 * b + 1)
      · simp [batchLoop, h0, h1, benignEv, isErrorEv, isCompletedEv,
          List.all_append, htasks, settleEvents_benign]
      · simp [batchLoop, h0, h1, benignEv, isErrorEv, isCompletedEv,
          List.all_append, htasks, settleEvents_benign, ih]

theorem contains_false_of_not_mem {l : List String} {m : String} (h : m ∉ l) :
    l.contains m = false := by
  rcases hb : l.contains m with _ | _
  · rfl
  · exfalso
    rcases List.contains_iff_exists_mem_beq.mp hb with ⟨x, hx, hbeq⟩
    have : m = x := by simpa using hbeq
    exact h (this ▸ hx)

theorem mapIdx_index_free {α β : Type} (g : α → β) :
    ∀ l : List α, l.mapIdx (fun _ a => g a) = l.map g := by
  intro l
  induction l with
  | nil => simp
  | cons a rest ih => simp [List.mapIdx_cons, ih]

/-- C7: after both allowed attempts fail, the executor returns a plain
failure value — `ok := false`, empty text, the last error message —
after exactly `maxAttempts = CHUNK_REQUEST_RETRIES + 1` attempts, rather
than throwing; and the batch loop settles every admitted unit
regardless of such failures (its translated list always covers every
admitted batch in full). -/
theorem executor_failure_returns_value (oracle : Nat → AttemptOutcome)
    (textChunk : Str) (idx : Nat)
    (h0 : isSuccessOutcome (oracle 0) = false)
    (h1 : isSuccessOutcome (oracle 1) = false) :
    (translateChunkWithRetries oracle textChunk idx).res =
      { text := [], ok := false, errMsg := some (outcomeMsg (oracle 1)) } ∧
    (translateChunkWithRetries oracle textChunk idx).attemptsMade =
      CHUNK_REQUEST_RETRIES + 1 ∧
    (∀ (w : World) (tc nb b d f : Nat) (batches : List (List (List Str))),
      (batchLoop w tc nb batches b d f).translated.length =
        ((batches.take (admittedCount w.exceeded b batches)).map
          List.length).sum) := by
  refine ⟨?_, ?_, ?_⟩
  · rcases o0 : oracle 0 with raw | m | _ <;>
      rcases o1 : oracle 1 with raw' | m' | _ <;>
      simp_all [translateChunkWithRetries, attemptLoop, CHUNK_REQUEST_RETRIES,
        isSuccessOutcome, outcomeMsg]
  · rcases o0 : oracle 0 with raw | m | _ <;>
      rcases o1 : oracle 1 with raw' | m' | _ <;>
      simp_all [translateChunkWithRetries, attemptLoop, CHUNK_REQUEST_RETRIES,
        isSuccessOutcome, outcomeMsg]
  · intro w tc nb b d f batches
    rw [batchLoop_translated_eq, List.length_flatten, map_mapIdx2]
    congr 1
    rw [mapIdx_congr2 _ (fun _ batch => batch.length) _
      (fun j batch => by simp)]
    exact mapIdx_index_free _ _

/-- Witness for C7 at a concrete input: both attempts fail with "boom";
the executor returns the failure value after 2 attempts, and a one-unit
admitted batch still settles its unit. -/
theorem executor_failure_returns_value_witness :
    (translateChunkWithRetries failOracle [] 1).res =
      { text := [], ok := false, errMsg := some "boom" } ∧
    (translateChunkWithRetries failOracle [] 1).attemptsMade = 2 ∧
    (batchLoop exWorldAllFail 1 1 [[[['a']]]] 0 0 0).translated.length = 1 := by
  obtain ⟨ha, hb, hc⟩ :=
    executor_failure_returns_value failOracle [] 1 rfl rfl
  refine ⟨ha, hb, ?_⟩
  rw [hc exWorldAllFail 1 1 0 0 0 [[[['a']]]]]
  decide

/-- C3 (counterexample): a unit whose first attempt fails with a
non-retriable client error (`401 Unauthorized`) is nonetheless retried:
the executor performs a second attempt after a 500 ms backoff, contrary
to the claim that it fails the unit immediately with no further attempt
and no backoff. -/
theorem nonretriable_retried_counterexample :
    isSuccessOutcome (authOracle 0) = false ∧
    (translateChunkWithRetries authOracle [] 1).attemptsMade = 2 ∧
    (translateChunkWithRetries authOracle [] 1).backoffsMs = [500] ∧
    ¬((translateChunkWithRetries authOracle [] 1).attemptsMade = 1 ∧
      (translateChunkWithRetries authOracle [] 1).backoffsMs = []) := by
  decide

/-- C3 (amended): the executor does not classify failures at all — after
any first-attempt failure (client error, server error or timeout alike)
it waits one 500 ms backoff and performs a second attempt; the unit
succeeds exactly when that second attempt does. -/
theorem every_failure_retried (oracle : Nat → AttemptOutcome)
    (textChunk : Str) (idx : Nat)
    (h0 : isSuccessOutcome (oracle 0) = false) :
    (translateChunkWithRetries oracle textChunk idx).attemptsMade = 2 ∧
    (translateChunkWithRetries oracle textChunk idx).backoffsMs = [500] ∧
    (translateChunkWithRetries oracle textChunk idx).res.ok =
      isSuccessOutcome (oracle 1) := by
  rcases o0 : oracle 0 with raw | m | _ <;>
    rcases o1 : oracle 1 with raw' | m' | _ <;>
    simp_all [translateChunkWithRetries, attemptLoop, CHUNK_REQUEST_RETRIES,
      isSuccessOutcome, outcomeMsg]

/-- Witness for the amended C3 at a concrete input: a first-attempt
timeout is retried once with a 500 ms backoff. -/
theorem every_failure_retried_witness :
    (translateChunkWithRetries (fun _ => AttemptOutcome.timeout) [] 2).attemptsMade = 2 ∧
    (translateChunkWithRetries (fun _ => AttemptOutcome.timeout) [] 2).backoffsMs = [500] ∧
    (translateChunkWithRetries (fun _ => AttemptOutcome.timeout) [] 2).res.ok = false :=
  every_failure_retried (fun _ => AttemptOutcome.timeout) [] 2 rfl

/-- C4: a batch is admitted only if the deadline check at its admission
returned false (once the deadline has passed, the loop breaks and no
further batch is admitted), and the loop's settled output covers every
admitted batch in full — each admitted unit contributes exactly the
result of running its complete retry loop, so admitted units settle and
are never cancelled mid-flight. -/
theorem deadline_admission_and_settlement (w : World) (tc nb : Nat)
    (batches : List (List (List Str))) (b d f : Nat) :
    (∀ j, j < admittedCount w.exceeded b batches →
      w.exceeded (2 * (b + j)) = false) ∧
    (batchLoop w tc nb batches b d f).translated =
      ((batches.take (admittedCount w.exceeded b batches)).mapIdx
        (fun j batch => batch.mapIdx
          (fun i pages =>
            (execUnit w ((b + j) * PARALLEL_LIMIT + i + 1) pages).res.text))).flatten :=
  ⟨fun j hj => admitted_not_exceeded w.exceeded batches b j hj,
   batchLoop_translated_eq w tc nb batches b d f⟩

/-- Witness for C4 at a concrete run: two singleton batches, deadline
passing right after the first; batch 0 was admitted under a false
deadline check and its unit settled, batch 1 was not admitted. -/
theorem deadline_admission_and_settlement_witness :
    exWorldDeadline.exceeded (2 * (0 + 0)) = false ∧
    (batchLoop exWorldDeadline 2 2 exBatches2 0 0 0).translated = [['o', 'k']] ∧
    admittedCount exWorldDeadline.exceeded 0 exBatches2 = 1 := by
  obtain ⟨h1, h2⟩ :=
    deadline_admission_and_settlement exWorldDeadline 2 2 exBatches2 0 0 0
  refine ⟨h1 0 (by decide), ?_, by decide⟩
  rw [h2]
  decide

/-- C1 (counterexample): a run in which every unit fails all its
attempts (zero successful units) still emits a `completed` event and no
`error` event — the code's fatal check is `translated.length === 0`
(zero *settled* units), not zero *successful* units, and it uploads a
blank document. -/
theorem allfail_completed_counterexample :
    successfulChunks (postModel exReq exWorldAllFail).translated = 0 ∧
    (postModel exReq exWorldAllFail).translated.length = 2 ∧
    (postModel exReq exWorldAllFail).events.any isErrorEv = false ∧
    (postModel exReq exWorldAllFail).events.any isCompletedEv = true := by
  decide

/-- C1 (amended): after the batch loop, the pipeline emits the fatal
"Nothing translated" error exactly when zero units settled (the
deadline cut admission off before any batch finished); when at least
one unit settled — even if every one of them failed — it emits a
`completed` event and no error (given a successful upload).  The batch
loop itself emits neither `error` nor `completed` events. -/
theorem fatal_error_iff_none_settled (w : World) (model : String)
    (cs tp tc nb : Nat) (lo : LoopOut) (url : String)
    (hup : w.uploadResult = some url) :
    ((finishRun w model cs tp tc lo).any isErrorEv = true ↔
      lo.translated.length = 0) ∧
    (lo.translated.length = 0 →
      finishRun w model cs tp tc lo =
        [Event.error "Nothing translated (timeout or errors)."] ∧
      (finishRun w model cs tp tc lo).any isCompletedEv = false) ∧
    (lo.translated.length ≠ 0 →
      (finishRun w model cs tp tc lo).any isCompletedEv = true) ∧
    (∀ (batches : List (List (List Str))) (b d f : Nat),
      (batchLoop w tc nb batches b d f).events.all benignEv = true) := by
  refine ⟨?_, ?_, ?_, fun batches b d f => batchLoop_events_benign w tc nb batches b d f⟩
  · by_cases hlen : lo.translated.length = 0
    · simp [finishRun, hlen, isErrorEv]
    · simp only [finishRun, hlen, if_false, hup]
      simp [isErrorEv, isCompletedEv]
  · intro hlen
    simp [finishRun, hlen, isErrorEv, isCompletedEv]
  · intro hlen
    simp only [finishRun, hlen, if_false, hup]
    simp [isErrorEv, isCompletedEv]

/-- Witness for the amended C1 at a concrete input: with a successful
upload available but an empty settled list, the run tail is exactly the
fatal error event. -/
theorem fatal_error_iff_none_settled_witness :
    finishRun exWorldMixed "gpt-4o-mini" 1 2 2 exLoEmpty =
      [Event.error "Nothing translated (timeout or errors)."] := by
  have h := fatal_error_iff_none_settled exWorldMixed "gpt-4o-mini" 1 2 2 2
    exLoEmpty "URL" rfl
  exact (h.2.1 (by decide)).1

/-- C2 (counterexample): a 2-unit run where unit 2 fails all attempts
but settles: `successfulUnits = 1 < totalUnits = 2`, yet the `completed`
event carries `partial = false` — the code computes the flag from the
settled count (`translated.length`), not the successful count. -/
theorem partial_flag_counterexample :
    successfulChunks (postModel exReq exWorldMixed).translated = 1 ∧
    (postModel exReq exWorldMixed).translated.length = 2 ∧
    completedPartFlags (postModel exReq exWorldMixed).events = [false] := by
  decide

/-- C2 (amended): the `completed` event's `partial` flag is true iff the
number of *settled* units is strictly below the total number of units
or the measured elapsed seconds reach the 290-second limit; a unit that
fails all its attempts but settles does not, by itself, make the result
partial. -/
theorem partial_flag_iff (w : World) (model : String)
    (cs tp tc : Nat) (lo : LoopOut) (url : String)
    (hup : w.uploadResult = some url)
    (hne : lo.translated.length ≠ 0) :
    completedPartFlags (finishRun w model cs tp tc lo) =
      [decide (lo.translated.length < tc) ||
        decide (HARD_TIME_LIMIT_MS / 1000 ≤ w.elapsedSeconds)] := by
  simp only [finishRun, hne, if_false, hup]
  simp [completedPartFlags]

/-- Witness for the amended C2 at a concrete input: one settled unit of
one total, elapsed 1 s — the completed event's flag is false. -/
theorem partial_flag_iff_witness :
    completedPartFlags (finishRun exWorldMixed "gpt-4o-mini" 1 2 1
      { events := [], translated := [['x']], failedChunks := 0, calls := 1 }) =
      [false] := by
  have h := partial_flag_iff exWorldMixed "gpt-4o-mini" 1 2 1
    { events := [], translated := [['x']], failedChunks := 0, calls := 1 }
    "URL" rfl (by decide)
  rw [h]
  decide

/-- C9 (counterexample): in page-count mode the text `"ab    cd"` split
into 4 pages yields blank units (page 2 trims to empty), and a run over
such a document admits all 4 units to execution — the executor is
invoked on blank units (4 settled units, 4 remote attempts), contrary
to the claim that blank units are dropped in every chunking mode. -/
theorem blank_unit_admitted_counterexample :
    (pageUnits ("ab    cd".toList) 4 1)[1]? = some [] ∧
    (postModel exReq exWorldBlank).translated.length = 4 ∧
    (postModel exReq exWorldBlank).translateCalls = 4 := by
  decide

/-- Witness for the amended C9 at a concrete input: the single chunk of
`chunkText " foo \n" 10` is the trimmed, nonblank `"foo"`. -/
theorem chunkText_chunks_trimmed_nonblank_witness :
    trim "foo".toList = "foo".toList ∧ "foo".toList ≠ ([] : Str) :=
  chunkText_chunks_trimmed_nonblank " foo \n".toList 10 "foo".toList (by decide)

/-- When the pre-extraction trace starts with a log event, the whole
run's first event is that log event (the extraction phase only appends). -/
theorem postAfterParse_head_log (w : World) (model : String) (cs : Nat)
    (m : String) (rest : List Event) (tp : Nat) (raw : Str) :
    (postAfterParse w model cs (Event.log m :: rest) tp raw).events.head? =
      some (Event.log m) := by
  unfold postAfterParse
  by_cases h : (trim raw).isEmpty = true
  · rw [if_pos h]
    simp
  · rw [if_neg h]
    simp

/-- C10: a request supplying a model outside the allow-list receives a
trace consisting of the single event `error "Unsupported model"`, with
the source document never downloaded and no translation call issued; a
request supplying no model defaults to `gpt-4o-mini`, which passes the
allow-list gate, so the trace never starts with that error. -/
theorem model_validation (req : Request) (w : World) :
    (∀ m : String, req.model = some m → m ∉ allowedModels →
      postModel req w =
        { events := [Event.error "Unsupported model"], fetched := false,
          translateCalls := 0, translated := [] }) ∧
    (req.model = none →
      req.model.getD "gpt-4o-mini" = "gpt-4o-mini" ∧
      allowedModels.contains (req.model.getD "gpt-4o-mini") = true ∧
      (postModel req w).events.head? ≠ some (Event.error "Unsupported model")) := by
  constructor
  · intro m hm hnm
    have hc : allowedModels.contains m = false := contains_false_of_not_mem hnm
    simp [postModel, hm, hc]
    intro hmem
    exact absurd hmem hnm
  · intro hm
    have hmodel : req.model.getD "gpt-4o-mini" = "gpt-4o-mini" := by
      rw [hm]; rfl
    refine ⟨hmodel, by rw [hmodel]; decide, ?_⟩
    simp only [postModel, hmodel]
    have hc : allowedModels.contains "gpt-4o-mini" = true := by decide
    rw [hc]
    simp only [Bool.not_true, Bool.false_eq_true, if_false]
    by_cases hfu : req.fileUrl.getD "" = ""
    · simp only [hfu, if_true]
      decide
    · simp only [hfu, if_false]
      by_cases hak : w.apiKeyPresent
      · simp only [hak, Bool.not_true, Bool.false_eq_true, if_false]
        by_cases hf : w.fetchOk
        · simp only [hf, Bool.not_true, Bool.false_eq_true, if_false]
          rcases hp : w.parseResult with _ | pd
          · rcases hfb : w.fallbackResult with _ | nt
            · simp only [hp, hfb]
              intro hcontra
              simp at hcontra
            · simp only [hp, hfb, List.cons_append, List.nil_append]
              rcases nt with ⟨n, t⟩
              rw [postAfterParse_head_log]
              decide
          · simp only [hp, List.cons_append, List.nil_append]
            rw [postAfterParse_head_log]
            decide
        · simp only [hf, Bool.not_false, if_true]
          intro hcontra
          simp at hcontra
      · simp only [hak, Bool.not_false, if_true]
        intro hcontra
        simp at hcontra

/-- Witness for C10 at concrete inputs: the model `"o3"` is rejected
with the single error event before any download, and a request without
a model passes the gate. -/
theorem model_validation_witness :
    postModel { exReq with model := some "o3" } exWorldMixed =
      { events := [Event.error "Unsupported model"], fetched := false,
        translateCalls := 0, translated := [] } ∧
    (postModel exReq exWorldMixed).events.head? ≠
      some (Event.error "Unsupported model") := by
  refine ⟨(model_validation { exReq with model := some "o3" } exWorldMixed).1
    "o3" rfl (by decide), ?_⟩
  exact ((model_validation exReq exWorldMixed).2 rfl).2.2

end Translator
